import Mathlib

/-!
Verification development for the phantom-frame caching reverse proxy.

The Rust sources are shallowly embedded:
  * `&str` / `String` values become `List Char` (byte positions in the source
    always fall on character boundaries, so character lists are faithful) or
    Lean `String` where the value is opaque (cache keys);
  * `HashMap<String, V>` becomes an association list with unique keys
    (insertion replaces, erasure filters); `VecDeque<String>` becomes
    `List String` with the front of the deque at the head of the list;
  * async effects (origin fetch, inbound body read) become an explicit
    environment record consumed by the handler, and the broadcast receiver
    of the invalidation listener becomes an explicit list of receive events.
-/

namespace PhantomFrame

/-! ## Substring search, embedding Rust `str::find` (first occurrence) -/

/-- The first index of `needle` in `hay`, as Rust `hay.find(needle)`:
`some 0` for an empty needle, `none` when absent. -/
def findSub (needle : List Char) : List Char → Option Nat
  | [] => if needle = [] then some 0 else none
  | c :: t =>
    if needle.isPrefixOf (c :: t) then some 0
    else (findSub needle t).map (· + 1)

/-- Rust `haystack.contains(needle)`. -/
def containsSub (hay needle : List Char) : Bool :=
  (findSub needle hay).isSome

/-- Rust `pattern.split('*').collect::<Vec<_>>()`: the list of fragments
between occurrences of `'*'`; never empty, `[""]` for the empty string. -/
def splitOnStar : List Char → List (List Char)
  | [] => [[]]
  | c :: t =>
    if c = '*' then [] :: splitOnStar t
    else
      match splitOnStar t with
      | [] => [[c]]
      | s :: ss => (c :: s) :: ss

namespace PathMatcher

/-! ## src/path_matcher.rs -/

/-- The loop of `matches_path_pattern` over the segments with index ≥ 1.
`path` is the full input (the Rust code tests `path.ends_with` on it),
`rem` is `path[current_pos..]`.  The singleton case is the last segment:
non-empty last segments must be a suffix of `path` and the first occurrence
of the segment inside `rem` must end exactly at the end of the input
(Rust: `current_pos + pos + segment.len() == path.len()`, which over `rem`
reads `pos + segment.len() == rem.len()`).  Other cases are middle
segments: advance past the first occurrence. -/
def matchSegsFrom (path : List Char) : List Char → List (List Char) → Bool
  | _, [] => true
  | rem, [seg] =>
    if seg = [] then true
    else if ! seg.isSuffixOf path then false
    else
      match findSub seg rem with
      | some p => decide (p + seg.length = rem.length)
      | none => false
  | rem, seg :: s₂ :: rest =>
    match findSub seg rem with
    | some p => matchSegsFrom path (rem.drop (p + seg.length)) (s₂ :: rest)
    | none => false

/-- Embeds `matches_path_pattern` (src/path_matcher.rs, lines 66-110):
split the pattern on `'*'`; with a single segment require exact equality;
otherwise check the first segment as a prefix and run the loop. -/
def matches_path_pattern (path pattern : List Char) : Bool :=
  match splitOnStar pattern with
  | [] => true
  | [_] => decide (path = pattern)
  | first :: rest =>
    if (! first.isEmpty) && (! first.isPrefixOf path) then false
    else matchSegsFrom path (path.drop first.length) rest

/-- The nine HTTP method tokens recognized by `parse_pattern`, in source
order. -/
def httpMethods : List (List Char) :=
  ["GET", "POST", "PUT", "DELETE", "PATCH", "HEAD", "OPTIONS", "CONNECT",
   "TRACE"].map String.data

/-- Rust `str::trim_start`; the source trims Unicode whitespace, the
patterns in play are ASCII so `Char.isWhitespace` is faithful. -/
def trimStart (s : List Char) : List Char :=
  s.dropWhile Char.isWhitespace

/-- Rust `str::trim` (both ends). -/
def trim (s : List Char) : List Char :=
  trimStart ((trimStart s.reverse).reverse)

/-- The loop of `parse_pattern` over the method table: the first method
that is a prefix of the trimmed pattern and is followed by a space or tab
wins; the path part is the remainder with leading whitespace trimmed. -/
def findMethod (p : List Char) : List (List Char) →
    Option (List Char × List Char)
  | [] => none
  | m :: ms =>
    if m.isPrefixOf p then
      match p.drop m.length with
      | [] => findMethod p ms
      | c :: rest =>
        if c = ' ' || c = '\t' then some (m, trimStart (c :: rest))
        else findMethod p ms
    else findMethod p ms

/-- Embeds `parse_pattern` (src/path_matcher.rs, lines 13-31): returns
the optional method token and the path glob of a pattern. -/
def parse_pattern (pattern : List Char) : Option (List Char) × List Char :=
  let p := trim pattern
  match findMethod p httpMethods with
  | some (m, pathPat) => (some m, pathPat)
  | none => (none, p)

/-- Embeds `matches_pattern_with_method` (src/path_matcher.rs,
lines 46-63). -/
def matches_pattern_with_method (method : Option (List Char))
    (path pattern : List Char) : Bool :=
  match parse_pattern pattern with
  | (some requiredMethod, pathPat) =>
    match method with
    | some actualMethod =>
      if requiredMethod ≠ actualMethod then false
      else matches_path_pattern path pathPat
    | none => false
  | (none, pathPat) => matches_path_pattern path pathPat

/-- Embeds `matches_pattern` (src/path_matcher.rs, line 36). -/
def matches_pattern (path pattern : List Char) : Bool :=
  matches_pattern_with_method none path pattern

/-- Embeds `should_cache_path` (src/path_matcher.rs, lines 117-145). -/
def should_cache_path (method path : List Char)
    (includePaths excludePaths : List (List Char)) : Bool :=
  if (! excludePaths.isEmpty) && excludePaths.any
      (fun pat => matches_pattern_with_method (some method) path pat) then
    false
  else if includePaths.isEmpty then true
  else includePaths.any
    (fun pat => matches_pattern_with_method (some method) path pat)

end PathMatcher

namespace Cache

/-! ## src/cache.rs -/

/-- Embeds the private `matches_pattern` of src/cache.rs (lines 47-90),
used for pattern invalidation of cache keys.  Unlike the path matcher it
never parses a method prefix, checks exact equality first, skips empty
parts entirely, and for the last part only requires it to be a suffix of
the remainder. -/
def cacheTailMatch : List Char → List (List Char) → Bool
  | _, [] => true
  | rem, [part] =>
    if part = [] then true
    else part.isSuffixOf rem
  | rem, part :: p₂ :: ps =>
    if part = [] then cacheTailMatch rem (p₂ :: ps)
    else
      match findSub part rem with
      | some pos => cacheTailMatch (rem.drop (pos + part.length)) (p₂ :: ps)
      | none => false

/-- Top level of the cache-key matcher: exact equality, then the wildcard
walk; a star-free pattern that is not equal to the key never matches. -/
def matches_pattern (key pattern : List Char) : Bool :=
  if key = pattern then true
  else
    match splitOnStar pattern with
    | [] => true
    | [_] => false
    | first :: rest =>
      if first = [] then cacheTailMatch key rest
      else if first.isPrefixOf key then cacheTailMatch (key.drop first.length) rest
      else false

/-- Embeds `CachedResponse` (src/cache.rs, lines 103-108); the body is a
byte list, the header map an association list. -/
structure CachedResponse where
  body : List Nat
  headers : List (String × String)
  status : Nat
deriving DecidableEq, Repr

/-- Lookup in an association list modelling `HashMap::get`. -/
def mapLookup {β : Type} : List (String × β) → String → Option β
  | [], _ => none
  | e :: t, k => if e.1 = k then some e.2 else mapLookup t k

/-- Insertion modelling `HashMap::insert`: any previous binding of the key
is dropped and the new binding appended (hash maps are unordered, so the
placement is a representation choice). -/
def mapInsert {β : Type} (m : List (String × β)) (k : String) (v : β) :
    List (String × β) :=
  m.filter (fun e => decide (e.1 ≠ k)) ++ [(k, v)]

/-- Erasure modelling `HashMap::remove` (the removed value is not used by
the source). -/
def mapErase {β : Type} (m : List (String × β)) (k : String) :
    List (String × β) :=
  m.filter (fun e => decide (e.1 ≠ k))

/-- Embeds `CacheStore` (src/cache.rs, lines 94-101): positive map,
negative (404) map, the FIFO of negative keys (head = oldest), and the
capacity.  The refresh trigger handle is channel plumbing and carries no
state that the claims mention. -/
structure CacheStore where
  store : List (String × CachedResponse)
  store404 : List (String × CachedResponse)
  keys404 : List String
  cache_404_capacity : Nat
deriving DecidableEq, Repr

/-- Embeds `CacheStore::new` (src/cache.rs, lines 111-119). -/
def CacheStore.new (cache_404_capacity : Nat) : CacheStore :=
  ⟨[], [], [], cache_404_capacity⟩

/-- Embeds `CacheStore::get`. -/
def CacheStore.get (s : CacheStore) (key : String) : Option CachedResponse :=
  mapLookup s.store key

/-- Embeds `CacheStore::get_404`. -/
def CacheStore.get_404 (s : CacheStore) (key : String) :
    Option CachedResponse :=
  mapLookup s.store404 key

/-- Embeds `CacheStore::set`. -/
def CacheStore.set (s : CacheStore) (key : String) (response : CachedResponse) :
    CacheStore :=
  { s with store := mapInsert s.store key response }

/-- The eviction loop of `set_404` (src/cache.rs, lines 160-164): while
the FIFO is longer than the capacity, pop the front key and remove it from
the map. -/
def evict404 (cap : Nat) : List String → List (String × CachedResponse) →
    List String × List (String × CachedResponse)
  | [], m => ([], m)
  | k :: rest, m =>
    if (k :: rest).length > cap then evict404 cap rest (mapErase m k)
    else (k :: rest, m)

/-- Embeds `CacheStore::set_404` (src/cache.rs, lines 138-165): no-op at
capacity zero; otherwise a key already present is first removed from its
FIFO position, the binding is inserted, the key appended to the FIFO tail,
and the eviction loop run. -/
def CacheStore.set_404 (s : CacheStore) (key : String)
    (response : CachedResponse) : CacheStore :=
  if s.cache_404_capacity = 0 then s
  else
    let keys₀ :=
      if (mapLookup s.store404 key).isSome then s.keys404.erase key
      else s.keys404
    let m := mapInsert s.store404 key response
    let out := evict404 s.cache_404_capacity (keys₀ ++ [key]) m
    { s with store404 := out.2, keys404 := out.1 }

/-- Embeds `CacheStore::clear`. -/
def CacheStore.clear (s : CacheStore) : CacheStore :=
  { s with store := [], store404 := [], keys404 := [] }

/-- Embeds `CacheStore::clear_by_pattern` (src/cache.rs, lines 177-186):
retain, in both maps and in the FIFO, exactly the keys the pattern does
not match. -/
def CacheStore.clear_by_pattern (s : CacheStore) (pattern : String) :
    CacheStore :=
  { s with
    store := s.store.filter
      (fun e => ! matches_pattern e.1.data pattern.data),
    store404 := s.store404.filter
      (fun e => ! matches_pattern e.1.data pattern.data),
    keys404 := s.keys404.filter
      (fun k => ! matches_pattern k.data pattern.data) }

/-- Embeds `CacheStore::size`. -/
def CacheStore.size (s : CacheStore) : Nat := s.store.length

/-- Embeds `CacheStore::size_404`. -/
def CacheStore.size_404 (s : CacheStore) : Nat := s.store404.length

/-- Embeds `RefreshMessage` (src/cache.rs, lines 7-12). -/
inductive RefreshMessage where
  | all
  | pattern (p : String)
deriving DecidableEq, Repr

end Cache

namespace Listener

/-! ## The invalidation listener, src/lib.rs lines 162-183 -/

open Cache

/-- One outcome of `broadcast::Receiver::recv`: a message, a lagged
indication (`RecvError::Lagged`), or channel closure
(`RecvError::Closed`). -/
inductive RecvEvent where
  | msg (m : RefreshMessage)
  | lagged (n : Nat)
  | closed
deriving DecidableEq, Repr

/-- The effect of one received refresh message on the store. -/
def apply_refresh (st : CacheStore) : RefreshMessage → CacheStore
  | .all => st.clear
  | .pattern p => st.clear_by_pattern p

/-- Embeds the loop of `spawn_refresh_listener`: `Ok` messages are
applied and the loop continues; any `Err` — `Lagged` as well as `Closed` —
logs and `break`s, leaving every later event unconsumed.  The result is
the state of the store when the task stops reading (an exhausted event
list stands for a listener still waiting on `recv`). -/
def refresh_listener (st : CacheStore) : List RecvEvent → CacheStore
  | [] => st
  | .msg m :: rest => refresh_listener (apply_refresh st m) rest
  | .lagged _ :: _ => st
  | .closed :: _ => st

/-- The messages strictly before the first receiver error. -/
def msgsBeforeError : List RecvEvent → List RefreshMessage
  | [] => []
  | .msg m :: rest => m :: msgsBeforeError rest
  | .lagged _ :: _ => []
  | .closed :: _ => []

end Listener

namespace Proxy

/-! ## src/proxy.rs and the configuration surface of src/lib.rs -/

open Cache
open PathMatcher

/-- Embeds `RequestInfo` (src/lib.rs, lines 14-23).  Of the header map the
handler itself reads only the `Connection` value and the presence of
`Upgrade`, so those are the header data carried here. -/
structure RequestInfo where
  method : String
  path : String
  query : String
  connectionHeader : Option String
  hasUpgradeHeader : Bool

/-- Embeds `CreateProxyConfig` (src/lib.rs, lines 27-60). -/
structure CreateProxyConfig where
  proxy_url : String
  include_paths : List String
  exclude_paths : List String
  enable_websocket : Bool
  forward_get_only : Bool
  cache_key_fn : RequestInfo → String
  cache_404_capacity : Nat
  use_404_meta : Bool

/-- The default cache key function of `CreateProxyConfig::new`
(src/lib.rs, lines 71-77). -/
def default_cache_key (r : RequestInfo) : String :=
  if r.query = "" then r.method ++ ":" ++ r.path
  else r.method ++ ":" ++ r.path ++ "?" ++ r.query

/-- Embeds `is_upgrade_request` (src/proxy.rs, lines 31-38): the
`Connection` value, lowercased, contains the substring `upgrade`, or an
`Upgrade` header is present.  `to_lowercase` is modelled by
`Char.toLower`, faithful on ASCII header values. -/
def is_upgrade_request (r : RequestInfo) : Bool :=
  (match r.connectionHeader with
   | some v => containsSub (v.data.map Char.toLower) "upgrade".data
   | none => false)
  || r.hasUpgradeHeader

/-- The outcome of the outbound origin request: connect/send failure,
response-body read failure, or a full response. -/
inductive FetchResult where
  | sendErr
  | bodyErr (status : Nat) (headers : List (String × String))
  | ok (status : Nat) (headers : List (String × String)) (body : List Nat)
deriving DecidableEq, Repr

/-- The request-scoped effects the handler awaits: the inbound body read
(`none` is a read failure) and the origin fetch. -/
structure RequestEnv where
  bodyRead : Option (List Nat)
  fetch : FetchResult

/-- What the handler returns to the framework: an error status
(`Err(StatusCode)`), a response served from cache, a response built from
the origin reply, or the hand-off to the upgrade tunnel (which never
touches the cache, src/proxy.rs lines 171-328). -/
inductive HandlerResult where
  | err (status : Nat)
  | cachedHit (r : CachedResponse)
  | fetched (r : CachedResponse)
  | upgraded
deriving DecidableEq, Repr

/-- Embeds `convert_headers_to_map` (src/proxy.rs, lines 366-379);
values are already text in the model, so every pair is inserted. -/
def convert_headers_to_map (hs : List (String × String)) :
    List (String × String) :=
  hs.foldl (fun m e => mapInsert m e.1 e.2) []

/-- Embeds `proxy_handler` (src/proxy.rs, lines 42-158) as a pure step
function from a cache state and the request-scoped effects to the result
and the next cache state: upgrade gate, `forward_get_only` gate,
cacheability policy, key generation, positive-map lookup, inbound body
read, origin fetch, and the unconditional positive `set` on a cacheable
fetched response.  The source never consults `get_404`, never calls
`set_404`, and never reads `use_404_meta`. -/
def proxy_handler (cfg : CreateProxyConfig) (cache : CacheStore)
    (req : RequestInfo) (env : RequestEnv) : HandlerResult × CacheStore :=
  if is_upgrade_request req then
    if cfg.enable_websocket then (.upgraded, cache)
    else (.err 501, cache)
  else if cfg.forward_get_only && req.method ≠ "GET" then (.err 405, cache)
  else
    let should_cache := should_cache_path req.method.data req.path.data
      (cfg.include_paths.map String.data) (cfg.exclude_paths.map String.data)
    let cache_key := cfg.cache_key_fn req
    match (if should_cache then cache.get cache_key else none) with
    | some cached => (.cachedHit cached, cache)
    | none =>
      match env.bodyRead with
      | none => (.err 400, cache)
      | some _ =>
        match env.fetch with
        | .sendErr => (.err 502, cache)
        | .bodyErr _ _ => (.err 502, cache)
        | .ok status headers body =>
          let cached_response : CachedResponse :=
            ⟨body, convert_headers_to_map headers, status⟩
          if should_cache then
            (.fetched cached_response, cache.set cache_key cached_response)
          else
            (.fetched cached_response, cache)

end Proxy

/-! ## Specification-level definitions used by the claims -/

/-- The needle occurs at position `i` of `s` and at no earlier position. -/
def leftmostAt (s seg : List Char) (i : Nat) : Prop :=
  seg <+: s.drop i ∧ ∀ j, j < i → ¬ seg <+: s.drop j

namespace PathMatcher

/-- Specification of the loop `matchSegsFrom`, stated over occurrence
positions.  A non-empty last segment must be a suffix of the whole input
and its leftmost occurrence in the unconsumed remainder must end exactly
at the end of the input; a middle segment is consumed at its leftmost
occurrence. -/
def SegsSpec (path : List Char) : List Char → List (List Char) → Prop
  | _, [] => True
  | rem, [seg] =>
    seg = [] ∨
      (seg <:+ path ∧ leftmostAt rem seg (rem.length - seg.length))
  | rem, seg :: s₂ :: rest =>
    ∃ i, leftmostAt rem seg i ∧
      SegsSpec path (rem.drop (i + seg.length)) (s₂ :: rest)

/-- Specification of the whole glob evaluation: with at least two
segments, the first segment (if non-empty) is a literal prefix and
`SegsSpec` governs the rest; the singleton branch mirrors the
exact-equality branch of the source. -/
def GlobSpec (path pattern : List Char) : Prop :=
  match splitOnStar pattern with
  | [] => True
  | [seg] => path = seg
  | first :: rest =>
    (first = [] ∨ first <+: path) ∧
      SegsSpec path (path.drop first.length) rest

end PathMatcher

namespace Cache

/-- Iterated `set_404`, for stating the FIFO/eviction claim. -/
def insertAll (st : CacheStore) (items : List (String × CachedResponse)) :
    CacheStore :=
  items.foldl (fun s kv => s.set_404 kv.1 kv.2) st

/-- The store invariant of the claims: the FIFO of negative keys has no
duplicates and carries exactly the key set of the negative map, the
negative map (an association list standing for a `HashMap`) has no
duplicate keys, and it holds at most `cache_404_capacity` entries. -/
def CacheInv (st : CacheStore) : Prop :=
  st.keys404.Nodup ∧
  (∀ k, k ∈ st.keys404 ↔ k ∈ st.store404.map Prod.fst) ∧
  (st.store404.map Prod.fst).Nodup ∧
  st.store404.length ≤ st.cache_404_capacity

end Cache

/-! ## Theorems -/

/-- Bridge between the Boolean prefix test and the prefix relation. -/
theorem isPrefixOf_iff {l₁ l₂ : List Char} :
    l₁.isPrefixOf l₂ = true ↔ l₁ <+: l₂ :=
  List.isPrefixOf_iff_prefix

/-- Bridge between the Boolean suffix test and the suffix relation. -/
theorem isSuffixOf_iff {l₁ l₂ : List Char} :
    l₁.isSuffixOf l₂ = true ↔ l₁ <:+ l₂ :=
  List.isSuffixOf_iff_suffix

/-- Occurrence specification of `findSub`: it returns exactly the least
index at which the needle occurs. -/
theorem findSub_eq_some_iff {seg s : List Char} {i : Nat} :
    findSub seg s = some i ↔ leftmostAt s seg i := by
  simp only [leftmostAt]
  induction s generalizing i with
  | nil =>
    by_cases hseg : seg = []
    · subst hseg
      have hval : findSub ([] : List Char) ([] : List Char) = some 0 := by
        simp [findSub]
      rw [hval]
      constructor
      · intro h
        injection h with h0
        subst h0
        exact ⟨List.nil_prefix, by intro j hj; omega⟩
      · rintro ⟨-, hmin⟩
        have hi0 : i = 0 := by
          by_contra hne
          exact hmin 0 (by omega) List.nil_prefix
        rw [hi0]
    · simp [findSub, if_neg hseg, List.prefix_nil, hseg]
  | cons c t ih =>
    by_cases hp : seg.isPrefixOf (c :: t) = true
    · have hp' : seg <+: c :: t := isPrefixOf_iff.mp hp
      simp only [findSub, if_pos hp, Option.some.injEq]
      constructor
      · intro h
        subst h
        exact ⟨by simpa using hp', by omega⟩
      · rintro ⟨hocc, hmin⟩
        by_contra hne
        exact hmin 0 (by omega) (by simpa using hp')
    · have hp' : ¬ seg <+: c :: t := fun h => hp (isPrefixOf_iff.mpr h)
      simp only [findSub, if_neg hp, Option.map_eq_some', leftmostAt]
      cases i with
      | zero =>
        constructor
        · rintro ⟨a, -, hcontra⟩
          omega
        · rintro ⟨hocc, -⟩
          exact absurd (by simpa using hocc) hp'
      | succ k =>
        constructor
        · rintro ⟨a, hfind, hak⟩
          have hak' : a = k := by omega
          subst hak'
          obtain ⟨hocc, hmin⟩ := ih.mp hfind
          refine ⟨by simpa [List.drop_succ_cons] using hocc, ?_⟩
          intro j hj
          cases j with
          | zero => simpa using hp'
          | succ j' =>
            simpa [List.drop_succ_cons] using hmin j' (by omega)
        · rintro ⟨hocc, hmin⟩
          refine ⟨k, ih.mpr ⟨by simpa [List.drop_succ_cons] using hocc, ?_⟩, rfl⟩
          intro j hj
          simpa [List.drop_succ_cons] using hmin (j + 1) (by omega)

namespace PathMatcher

/-- The segment loop agrees with its occurrence-level specification. -/
theorem matchSegsFrom_iff (path : List Char) (segs : List (List Char)) :
    ∀ rem, matchSegsFrom path rem segs = true ↔ SegsSpec path rem segs := by
  induction segs with
  | nil =>
    intro rem
    simp [matchSegsFrom, SegsSpec]
  | cons seg rest ih =>
    intro rem
    cases rest with
    | nil =>
      by_cases hseg : seg = []
      · subst hseg
        simp [matchSegsFrom, SegsSpec]
      · by_cases hsuf : seg.isSuffixOf path = true
        · have hsuf' : seg <:+ path := isSuffixOf_iff.mp hsuf
          cases hfind : findSub seg rem with
          | some p =>
            have hleft := findSub_eq_some_iff.mp hfind
            simp only [matchSegsFrom, SegsSpec, if_neg hseg, hsuf,
              Bool.not_true, Bool.false_eq_true, if_neg (by simp : ¬ False),
              hfind, decide_eq_true_eq]
            constructor
            · intro hpl
              refine Or.inr ⟨hsuf', ?_⟩
              have hplen : p = rem.length - seg.length := by omega
              rw [hplen] at hleft
              exact hleft
            · rintro (h | ⟨-, hIdx⟩)
              · exact absurd h hseg
              · have hsome : findSub seg rem =
                    some (rem.length - seg.length) :=
                  findSub_eq_some_iff.mpr hIdx
                rw [hfind] at hsome
                have hpv : p = rem.length - seg.length := by
                  injection hsome
                have hlen : seg.length ≤ (rem.drop p).length :=
                  hleft.1.length_le
                rw [List.length_drop] at hlen
                omega
          | none =>
            simp only [matchSegsFrom, SegsSpec, if_neg hseg, hsuf,
              Bool.not_true, Bool.false_eq_true, if_neg (by simp : ¬ False),
              hfind, Bool.false_eq_true, false_iff]
            rintro (h | ⟨-, hIdx⟩)
            · exact absurd h hseg
            · have hsome := findSub_eq_some_iff.mpr hIdx
              rw [hfind] at hsome
              cases hsome
        · have hsuf' : ¬ seg <:+ path := fun h => hsuf (isSuffixOf_iff.mpr h)
          have hsufF : seg.isSuffixOf path = false :=
            Bool.not_eq_true _ ▸ Bool.of_not_eq_true hsuf
          simp [matchSegsFrom, SegsSpec, hseg, hsufF, hsuf']
    | cons s₂ rest' =>
      cases hfind : findSub seg rem with
      | some p =>
        simp only [matchSegsFrom, SegsSpec, hfind]
        constructor
        · intro h
          exact ⟨p, findSub_eq_some_iff.mp hfind, (ih _).mp h⟩
        · rintro ⟨i, hl, hs⟩
          have hsome := findSub_eq_some_iff.mpr hl
          rw [hfind] at hsome
          have hip : p = i := by injection hsome
          subst hip
          exact (ih _).mpr hs
      | none =>
        simp only [matchSegsFrom, SegsSpec, hfind, Bool.false_eq_true,
          false_iff]
        rintro ⟨i, hl, -⟩
        have hsome := findSub_eq_some_iff.mpr hl
        rw [hfind] at hsome
        cases hsome

/-- A split never produces the empty segment list. -/
theorem splitOnStar_ne_nil (l : List Char) : splitOnStar l ≠ [] := by
  cases l with
  | nil => simp [splitOnStar]
  | cons c t =>
    simp only [splitOnStar]
    by_cases hc : c = '*'
    · simp [hc]
    · simp only [if_neg hc]
      cases h : splitOnStar t <;> simp

/-- A pattern containing a star splits into at least two segments. -/
theorem two_le_splitOnStar_length {l : List Char} (h : '*' ∈ l) :
    2 ≤ (splitOnStar l).length := by
  induction l with
  | nil => cases h
  | cons c t ih =>
    simp only [splitOnStar]
    by_cases hc : c = '*'
    · simp only [if_pos hc, List.length_cons]
      have := List.length_pos.mpr (splitOnStar_ne_nil t)
      omega
    · have ht : '*' ∈ t := by
        rcases List.mem_cons.mp h with h0 | h0
        · exact absurd h0.symm hc
        · exact h0
      simp only [if_neg hc]
      cases hs : splitOnStar t with
      | nil => exact absurd hs (splitOnStar_ne_nil t)
      | cons s ss =>
        have h2 := ih ht
        rw [hs] at h2
        simpa using h2

end PathMatcher

namespace PathMatcher

/-- Splitting a star-free pattern yields the pattern as sole segment. -/
theorem splitOnStar_no_star {l : List Char} (h : '*' ∉ l) :
    splitOnStar l = [l] := by
  induction l with
  | nil => rfl
  | cons c t ih =>
    have hc : c ≠ '*' := fun he => h (he ▸ List.mem_cons_self c t)
    have ht : '*' ∉ t := fun hm => h (List.mem_cons_of_mem c hm)
    simp only [splitOnStar, if_neg hc, ih ht]

/-- Membership in a trimmed string implies membership in the original. -/
theorem mem_of_mem_trim {c : Char} {l : List Char}
    (h : c ∈ trim l) : c ∈ l := by
  unfold trim trimStart at h
  have h1 := (List.dropWhile_sublist _).subset h
  rw [List.mem_reverse] at h1
  have h2 := (List.dropWhile_sublist _).subset h1
  rwa [List.mem_reverse] at h2

/-- When the parse yields no method, the path part is the trimmed
pattern. -/
theorem parse_pattern_none {pattern pp : List Char}
    (h : parse_pattern pattern = (none, pp)) :
    pp = trim pattern := by
  simp only [parse_pattern] at h
  cases hfm : findMethod (trim pattern) httpMethods with
  | none =>
    rw [hfm] at h
    exact (Prod.mk.injEq _ _ _ _ ▸ h).2.symm
  | some v =>
    rw [hfm] at h
    cases v with
    | mk a b => simp at h

end PathMatcher

/-- claim C3 (amended): for every path-glob containing at least one star
and every input, the source glob evaluation agrees with the occurrence
specification `GlobSpec`: the first segment (if non-empty) is a prefix of
the input; each following segment is consumed at its leftmost occurrence
after the previous match end; the last segment (if non-empty) must be a
suffix of the input whose leftmost occurrence after the previous match
end ends exactly at the end of the input. -/
theorem claim_C3 (path pattern : List Char) (h : '*' ∈ pattern) :
    PathMatcher.matches_path_pattern path pattern = true ↔
      PathMatcher.GlobSpec path pattern := by
  have hlen := PathMatcher.two_le_splitOnStar_length h
  cases hsplit : splitOnStar pattern with
  | nil => exact absurd hsplit (PathMatcher.splitOnStar_ne_nil pattern)
  | cons s₀ tl =>
    cases tl with
    | nil =>
      rw [hsplit] at hlen
      simp at hlen
    | cons s₁ rest =>
      simp only [PathMatcher.matches_path_pattern, PathMatcher.GlobSpec,
        hsplit]
      by_cases hcond : ((! s₀.isEmpty) && (! s₀.isPrefixOf path)) = true
      · obtain ⟨hc1, hc2⟩ := Bool.and_eq_true_iff.mp hcond
        have hne : s₀ ≠ [] := by
          intro h0
          rw [h0] at hc1
          simp at hc1
        have hnp : ¬ s₀ <+: path := by
          intro hpp
          rw [isPrefixOf_iff.mpr hpp] at hc2
          simp at hc2
        rw [if_pos hcond]
        simp [hne, hnp]
      · have hor : s₀ = [] ∨ s₀ <+: path := by
          by_cases h0 : s₀ = []
          · exact Or.inl h0
          · right
            by_cases hpp : s₀.isPrefixOf path = true
            · exact isPrefixOf_iff.mp hpp
            · exfalso
              apply hcond
              have e1 : s₀.isEmpty = false := by
                simpa [List.isEmpty_iff] using h0
              have e2 : s₀.isPrefixOf path = false :=
                Bool.eq_false_iff.mpr hpp
              rw [e1, e2]
              rfl
        rw [if_neg hcond, PathMatcher.matchSegsFrom_iff]
        exact (and_iff_right hor).symm

/-- claim C3, counterexample to the claim as stated: for the two-segment
pattern `a*bb` the input `abbb` has the first segment as a prefix and the
last as a suffix, the two matched regions cannot overlap
(1 + 2 ≤ 4), yet the source matcher rejects it, because the first
occurrence of `bb` after the prefix does not end at the end of the
input. -/
theorem claim_C3_counterexample :
    "a".data.isPrefixOf "abbb".data = true ∧
    "bb".data.isSuffixOf "abbb".data = true ∧
    "a".data.length + "bb".data.length ≤ "abbb".data.length ∧
    splitOnStar "a*bb".data = ["a".data, "bb".data] ∧
    PathMatcher.matches_path_pattern "abbb".data "a*bb".data = false := by
  decide

/-- Witness for claim_C3 at a concrete pattern and path. -/
theorem claim_C3_witness :
    ('*' ∈ "/api/*".data) ∧
    (PathMatcher.matches_path_pattern "/api/users".data "/api/*".data = true ↔
      PathMatcher.GlobSpec "/api/users".data "/api/*".data) :=
  ⟨by decide, claim_C3 "/api/users".data "/api/*".data (by decide)⟩

/-- claim C9: for star-free patterns the request-policy matcher accepts
exactly the path that equals the pattern byte-for-byte, modulo the
matcher first trimming the pattern and parsing an optional HTTP method
prefix (a star-free pattern with a method prefix can never match, as the
path-only entry point supplies no method). -/
theorem claim_C9 (path pattern : List Char) (h : '*' ∉ pattern) :
    PathMatcher.matches_pattern path pattern = true ↔
      ((PathMatcher.parse_pattern pattern).1 = none ∧
        path = (PathMatcher.parse_pattern pattern).2) := by
  unfold PathMatcher.matches_pattern PathMatcher.matches_pattern_with_method
  cases hparse : PathMatcher.parse_pattern pattern with
  | mk pm pp =>
    cases pm with
    | some m => simp
    | none =>
      have hpp : pp = PathMatcher.trim pattern :=
        PathMatcher.parse_pattern_none hparse
      have hstar : '*' ∉ pp := fun hm =>
        h (PathMatcher.mem_of_mem_trim (hpp ▸ hm))
      have hsp : splitOnStar pp = [pp] :=
        PathMatcher.splitOnStar_no_star hstar
      simp only [PathMatcher.matches_path_pattern, hsp, decide_eq_true_eq]
      simp

/-- Witness for claim_C9 at a concrete star-free pattern. -/
theorem claim_C9_witness :
    ('*' ∉ "/api/users".data) ∧
    (PathMatcher.matches_pattern "/api/users".data "/api/users".data = true ↔
      ((PathMatcher.parse_pattern "/api/users".data).1 = none ∧
        "/api/users".data = (PathMatcher.parse_pattern "/api/users".data).2)) :=
  ⟨by decide, claim_C9 "/api/users".data "/api/users".data (by decide)⟩

/-- claim C5: the caching policy.  Any matching exclude pattern forces
the answer false regardless of the include list; with no matching
exclude, an empty include list yields true, and a non-empty include list
yields true exactly when some include pattern matches. -/
theorem claim_C5 (m x : List Char) (I E : List (List Char)) :
    ((∃ e ∈ E,
        PathMatcher.matches_pattern_with_method (some m) x e = true) →
      PathMatcher.should_cache_path m x I E = false) ∧
    ((∀ e ∈ E,
        PathMatcher.matches_pattern_with_method (some m) x e = false) →
      (I = [] → PathMatcher.should_cache_path m x I E = true) ∧
      (I ≠ [] →
        (PathMatcher.should_cache_path m x I E = true ↔
          ∃ p ∈ I,
            PathMatcher.matches_pattern_with_method (some m) x p = true))) := by
  constructor
  · rintro ⟨e, he, hme⟩
    have hany : E.any
        (fun pat => PathMatcher.matches_pattern_with_method (some m) x pat) =
          true :=
      List.any_eq_true.mpr ⟨e, he, hme⟩
    have hne : E.isEmpty = false := by
      cases E with
      | nil => cases he
      | cons a t => rfl
    unfold PathMatcher.should_cache_path
    rw [hne, hany]
    rfl
  · intro hall
    have hany : E.any
        (fun pat => PathMatcher.matches_pattern_with_method (some m) x pat) =
          false := by
      rw [List.any_eq_false]
      intro e he
      simp [hall e he]
    unfold PathMatcher.should_cache_path
    rw [hany, Bool.and_false]
    constructor
    · intro hI
      subst hI
      rfl
    · intro hI
      have hIe : I.isEmpty = false := by
        cases I with
        | nil => exact absurd rfl hI
        | cons a t => rfl
      rw [if_neg Bool.false_ne_true, hIe, if_neg Bool.false_ne_true]
      exact List.any_eq_true

/-- Witness for claim_C5: the exclude pattern `POST *` blocks caching of
a POST request regardless of the include list. -/
theorem claim_C5_witness :
    PathMatcher.should_cache_path "POST".data "/a".data [] ["POST *".data] =
      false :=
  (claim_C5 "POST".data "/a".data [] ["POST *".data]).1
    ⟨"POST *".data, by simp, by decide⟩

/-- claim C4 (amended): the invalidation listener applies, in order,
exactly the messages received before the first receiver error, and stops
at the first receiver error: channel closure and a lagged indication are
both terminal (the source breaks out of its loop on any receive
error). -/
theorem claim_C4 (st : Cache.CacheStore) (evs : List Listener.RecvEvent) :
    Listener.refresh_listener st evs =
      (Listener.msgsBeforeError evs).foldl Listener.apply_refresh st := by
  induction evs generalizing st with
  | nil => rfl
  | cons e rest ih =>
    cases e with
    | msg m =>
      simp only [Listener.refresh_listener, Listener.msgsBeforeError,
        List.foldl_cons]
      exact ih _
    | lagged n => rfl
    | closed => rfl

/-- claim C4, counterexample to the claim as stated: after a lagged
indication the listener does not continue consuming; a subsequent `All`
message is left unapplied (the store keeps its entry), although applying
it would have cleared the store. -/
theorem claim_C4_counterexample :
    Listener.refresh_listener
        (⟨[("GET:/x", ⟨[1], [], 200⟩)], [], [], 100⟩ : Cache.CacheStore)
        [Listener.RecvEvent.lagged 1,
          Listener.RecvEvent.msg Cache.RefreshMessage.all] =
      (⟨[("GET:/x", ⟨[1], [], 200⟩)], [], [], 100⟩ : Cache.CacheStore) ∧
    Listener.refresh_listener
        (⟨[("GET:/x", ⟨[1], [], 200⟩)], [], [], 100⟩ : Cache.CacheStore)
        [Listener.RecvEvent.msg Cache.RefreshMessage.all] ≠
      (⟨[("GET:/x", ⟨[1], [], 200⟩)], [], [], 100⟩ : Cache.CacheStore) := by
  decide

/-- claim C1, evaluation of the code at the failing input: a cacheable
`GET /missing` (no filters, `use_404_meta` set, capacity 100, empty
cache) whose origin fetch returns status 404 is inserted into the
positive store by `set`; the negative store and its FIFO remain empty —
the handler never calls `set_404` and never reads `use_404_meta`. -/
theorem claim_C1_code_eval :
    Proxy.proxy_handler
        ⟨"http://o", [], [], true, false, Proxy.default_cache_key, 100, true⟩
        (Cache.CacheStore.new 100)
        ⟨"GET", "/missing", "", none, false⟩
        ⟨some [], .ok 404 [] []⟩ =
      (.fetched ⟨[], [], 404⟩,
        ⟨[("GET:/missing", ⟨[], [], 404⟩)], [], [], 100⟩) := by
  decide

/-- claim C2, evaluation of the code at the failing input: with the key
`GET:/x` present in the negative map (and absent from the positive map),
a cacheable `GET /x` is not served from the negative cache: the handler
result is `fetched` (the origin was consulted) and the origin's 200
response is written to the positive map, while `get_404` was never
consulted. -/
theorem claim_C2_code_eval :
    (Cache.CacheStore.get_404
        (⟨[], [("GET:/x", ⟨[9], [], 404⟩)], ["GET:/x"], 100⟩ :
          Cache.CacheStore) "GET:/x" = some ⟨[9], [], 404⟩) ∧
    Proxy.proxy_handler
        ⟨"http://o", [], [], true, false, Proxy.default_cache_key, 100, false⟩
        (⟨[], [("GET:/x", ⟨[9], [], 404⟩)], ["GET:/x"], 100⟩ :
          Cache.CacheStore)
        ⟨"GET", "/x", "", none, false⟩
        ⟨some [], .ok 200 [] [7]⟩ =
      (.fetched ⟨[7], [], 200⟩,
        ⟨[("GET:/x", ⟨[7], [], 200⟩)],
          [("GET:/x", ⟨[9], [], 404⟩)], ["GET:/x"], 100⟩) := by
  decide

/-- claim C10: whenever the handler returns an error status instead of a
proxied response, the status is one of 501 (upgrade disabled), 405
(non-GET under get-only), 400 (inbound body read failure) or 502 (origin
send or response-body failure), and the cache store is returned
unchanged: nothing is inserted, modified, or removed in either map or in
the FIFO. -/
theorem claim_C10 (cfg : Proxy.CreateProxyConfig) (st : Cache.CacheStore)
    (req : Proxy.RequestInfo) (env : Proxy.RequestEnv) (s : Nat)
    (h : (Proxy.proxy_handler cfg st req env).1 = .err s) :
    (s = 501 ∨ s = 405 ∨ s = 400 ∨ s = 502) ∧
      (Proxy.proxy_handler cfg st req env).2 = st := by
  revert h
  unfold Proxy.proxy_handler
  repeat' split
  all_goals intro h
  all_goals
    try rcases hv : (if PathMatcher.should_cache_path req.method.data
          req.path.data (List.map String.data cfg.include_paths)
          (List.map String.data cfg.exclude_paths) = true then
        Cache.CacheStore.get st (cfg.cache_key_fn req)
      else none) with _ | cached
  all_goals try simp_all
  all_goals split at h
  all_goals simp_all

/-- Witness for claim_C10: a POST under `forward_get_only` yields 405
and leaves a concrete store untouched. -/
theorem claim_C10_witness :
    ((405 = 501 ∨ 405 = 405 ∨ 405 = 400 ∨ 405 = 502) ∧
      (Proxy.proxy_handler
          ⟨"http://o", [], [], true, true, Proxy.default_cache_key, 100,
            false⟩
          (⟨[("GET:/a", ⟨[1], [], 200⟩)], [], [], 100⟩ : Cache.CacheStore)
          ⟨"POST", "/a", "", none, false⟩
          ⟨some [], .ok 200 [] []⟩).2 =
        (⟨[("GET:/a", ⟨[1], [], 200⟩)], [], [], 100⟩ : Cache.CacheStore)) :=
  claim_C10
    ⟨"http://o", [], [], true, true, Proxy.default_cache_key, 100, false⟩
    (⟨[("GET:/a", ⟨[1], [], 200⟩)], [], [], 100⟩ : Cache.CacheStore)
    ⟨"POST", "/a", "", none, false⟩
    ⟨some [], .ok 200 [] []⟩ 405 (by decide)

/-- claim C8: after `clear_by_pattern`, no surviving key in the positive
map, the negative map, or the negative FIFO matches the pattern, where
matching is the path-only cache-key glob applied to the full key text
with no method-prefix parsing; entries whose keys do not match are
retained with their values. -/
theorem claim_C8 (st : Cache.CacheStore) (p : String) :
    (∀ e ∈ (st.clear_by_pattern p).store,
        Cache.matches_pattern e.1.data p.data = false) ∧
    (∀ e ∈ (st.clear_by_pattern p).store404,
        Cache.matches_pattern e.1.data p.data = false) ∧
    (∀ k ∈ (st.clear_by_pattern p).keys404,
        Cache.matches_pattern k.data p.data = false) ∧
    (∀ e ∈ st.store, Cache.matches_pattern e.1.data p.data = false →
        e ∈ (st.clear_by_pattern p).store) ∧
    (∀ e ∈ st.store404, Cache.matches_pattern e.1.data p.data = false →
        e ∈ (st.clear_by_pattern p).store404) := by
  unfold Cache.CacheStore.clear_by_pattern
  refine ⟨?_, ?_, ?_, ?_, ?_⟩
  · intro e he
    have hm := (List.mem_filter.mp he).2
    simpa using hm
  · intro e he
    have hm := (List.mem_filter.mp he).2
    simpa using hm
  · intro k hk
    have hm := (List.mem_filter.mp hk).2
    simpa using hm
  · intro e he hm
    exact List.mem_filter.mpr ⟨he, by simp [hm]⟩
  · intro e he hm
    exact List.mem_filter.mpr ⟨he, by simp [hm]⟩

/-- Witness for claim_C8: invalidating with the literal-text pattern
`GET:/api/*` retains the non-matching entry `GET:/other`. -/
theorem claim_C8_witness :
    ("GET:/other", (⟨[2], [], 200⟩ : Cache.CachedResponse)) ∈
      ((⟨[("GET:/api/a", ⟨[1], [], 200⟩), ("GET:/other", ⟨[2], [], 200⟩)],
          [], [], 100⟩ : Cache.CacheStore).clear_by_pattern
        "GET:/api/*").store :=
  (claim_C8
      (⟨[("GET:/api/a", ⟨[1], [], 200⟩), ("GET:/other", ⟨[2], [], 200⟩)],
        [], [], 100⟩ : Cache.CacheStore) "GET:/api/*").2.2.2.1
    ("GET:/other", ⟨[2], [], 200⟩) (by decide) (by decide)

namespace Cache

/-- Lookup misses when the key is not among the map keys. -/
theorem mapLookup_eq_none {β : Type} {m : List (String × β)} {k : String}
    (h : k ∉ m.map Prod.fst) : mapLookup m k = none := by
  induction m with
  | nil => rfl
  | cons e t ih =>
    simp only [List.map_cons, List.mem_cons, not_or] at h
    simp only [mapLookup]
    rw [if_neg (fun he => h.1 he.symm)]
    exact ih h.2

/-- Erasing an absent key is the identity. -/
theorem mapErase_of_not_mem {β : Type} {m : List (String × β)} {k : String}
    (h : k ∉ m.map Prod.fst) : mapErase m k = m := by
  unfold mapErase
  rw [List.filter_eq_self]
  intro e he
  simp only [decide_eq_true_eq]
  intro hek
  exact h (hek ▸ List.mem_map_of_mem Prod.fst he)

/-- Inserting a fresh key appends the binding. -/
theorem mapInsert_of_not_mem {β : Type} {m : List (String × β)} {k : String}
    {v : β} (h : k ∉ m.map Prod.fst) : mapInsert m k v = m ++ [(k, v)] := by
  unfold mapInsert
  rw [show m.filter (fun e => decide (e.1 ≠ k)) = mapErase m k from rfl,
    mapErase_of_not_mem h]

/-- Erasing the head key of a map whose tail does not repeat it drops
exactly the head. -/
theorem mapErase_cons_self {β : Type} {d : String × β}
    {t : List (String × β)} (h : d.1 ∉ t.map Prod.fst) :
    mapErase (d :: t) d.1 = t := by
  unfold mapErase
  rw [List.filter_cons_of_neg (by simp)]
  exact mapErase_of_not_mem h

/-- The eviction loop does nothing within capacity. -/
theorem evict404_le {cap : Nat} {keys : List String}
    {m : List (String × CachedResponse)} (h : keys.length ≤ cap) :
    evict404 cap keys m = (keys, m) := by
  cases keys with
  | nil => rfl
  | cons k rest =>
    unfold evict404
    rw [if_neg (by omega)]

/-- The eviction loop over capacity pops the head. -/
theorem evict404_succ {cap : Nat} {k : String} {rest : List String}
    {m : List (String × CachedResponse)} (h : cap < (k :: rest).length) :
    evict404 cap (k :: rest) m = evict404 cap rest (mapErase m k) := by
  rw [show evict404 cap (k :: rest) m =
      if (k :: rest).length > cap then evict404 cap rest (mapErase m k)
      else (k :: rest, m) from rfl,
    if_pos (by omega)]

/-- One `set_404` with a key fresh for the negative map: no erase fires,
the binding and the key are appended, and the eviction loop runs. -/
theorem set_404_fresh {S D : List (String × CachedResponse)}
    {Dk : List String} {c : Nat} {k : String} {v : CachedResponse}
    (hc : c ≠ 0) (hk : k ∉ D.map Prod.fst) :
    (⟨S, D, Dk, c⟩ : CacheStore).set_404 k v =
      ⟨S, (evict404 c (Dk ++ [k]) (D ++ [(k, v)])).2,
        (evict404 c (Dk ++ [k]) (D ++ [(k, v)])).1, c⟩ := by
  simp only [CacheStore.set_404, mapLookup_eq_none hk, Option.isSome_none,
    Bool.false_eq_true, if_false, if_neg hc, mapInsert_of_not_mem hk]

/-- Iterated `set_404` of pairwise-distinct keys into an initially empty
store of capacity `c ≥ 1`: the negative map holds exactly the last
`min (n, c)` inserted pairs, the FIFO their keys, in insertion order. -/
theorem insertAll_spec {c : Nat} (hc : 1 ≤ c)
    (items : List (String × CachedResponse))
    (hnd : (items.map Prod.fst).Nodup) :
    insertAll (CacheStore.new c) items =
      ⟨[], items.drop (items.length - c),
        (items.map Prod.fst).drop (items.length - c), c⟩ := by
  induction items using List.reverseRecOn with
  | nil => simp [insertAll, CacheStore.new, List.drop_nil]
  | append_singleton xs x ih =>
    obtain ⟨kx, vx⟩ := x
    rw [List.map_append] at hnd
    have hnd' : (xs.map Prod.fst).Nodup := hnd.of_append_left
    have hx : kx ∉ xs.map Prod.fst := by
      have hd := (List.nodup_append.mp hnd).2.2
      intro hmem
      exact hd hmem (by simp)
    have hstep : insertAll (CacheStore.new c) (xs ++ [(kx, vx)]) =
        (insertAll (CacheStore.new c) xs).set_404 kx vx := by
      unfold insertAll
      rw [List.foldl_append]
      rfl
    rw [hstep, ih hnd']
    have hxD : kx ∉ ((xs.drop (xs.length - c)).map Prod.fst) := by
      intro hmem
      rw [List.map_drop] at hmem
      exact hx ((List.drop_sublist _ _).subset hmem)
    rw [set_404_fresh (by omega) hxD]
    rcases Nat.lt_or_ge xs.length c with hlt | hge
    · have h0 : xs.length - c = 0 := by omega
      have h1 : (xs ++ [(kx, vx)]).length - c = 0 := by
        rw [List.length_append]
        simp only [List.length_singleton]
        omega
      rw [h0, h1]
      simp only [List.drop_zero]
      rw [evict404_le (by simp only [List.length_append, List.length_map,
        List.length_singleton]; omega)]
      simp [List.map_append]
    · have hDlen : (xs.drop (xs.length - c)).length = c := by
        rw [List.length_drop]
        omega
      obtain ⟨d, D', hD⟩ : ∃ d D', xs.drop (xs.length - c) = d :: D' := by
        cases hDv : xs.drop (xs.length - c) with
        | nil =>
          rw [hDv] at hDlen
          simp at hDlen
          omega
        | cons d D' => exact ⟨d, D', rfl⟩
      have hDk : (xs.map Prod.fst).drop (xs.length - c) =
          d.1 :: D'.map Prod.fst := by
        rw [← List.map_drop, hD, List.map_cons]
      have hDlen' : D'.length = c - 1 := by
        rw [hD] at hDlen
        simp only [List.length_cons] at hDlen
        omega
      have hDnd : (d.1 :: D'.map Prod.fst).Nodup := by
        rw [← hDk]
        exact (List.drop_sublist _ _).nodup hnd'
      have hdh : d.1 ∉ D'.map Prod.fst := (List.nodup_cons.mp hDnd).1
      have hdmem : d.1 ∈ xs.map Prod.fst := by
        have hmem : d.1 ∈ (xs.drop (xs.length - c)).map Prod.fst := by
          rw [hD]
          simp
        rw [List.map_drop] at hmem
        exact (List.drop_sublist _ _).subset hmem
      have hdx : d.1 ≠ kx := fun he => hx (he ▸ hdmem)
      rw [hD, hDk]
      simp only [List.cons_append]
      rw [evict404_succ (by
        simp only [List.length_cons, List.length_append, List.length_map,
          List.length_singleton]
        omega)]
      have hnotin : d.1 ∉ (D' ++ [(kx, vx)]).map Prod.fst := by
        rw [List.map_append]
        intro hmem
        rcases List.mem_append.mp hmem with hmem | hmem
        · exact hdh hmem
        · simp only [List.map_cons, List.map_nil,
            List.mem_singleton] at hmem
          exact hdx hmem
      rw [mapErase_cons_self hnotin]
      rw [evict404_le (by
        simp only [List.length_append, List.length_map,
          List.length_singleton]
        omega)]
      have hdropxs : xs.drop (xs.length - c + 1) = D' := by
        have h2 := List.drop_drop 1 (xs.length - c) xs
        rw [hD] at h2
        simpa using h2.symm
      have hdropk : (xs.map Prod.fst).drop (xs.length - c + 1) =
          D'.map Prod.fst := by
        have h2 := List.drop_drop 1 (xs.length - c) (xs.map Prod.fst)
        rw [hDk] at h2
        simpa using h2.symm
      have hlen2 : (xs ++ [(kx, vx)]).length - c = xs.length - c + 1 := by
        rw [List.length_append]
        simp only [List.length_singleton]
        omega
      have hstore2 : (xs ++ [(kx, vx)]).drop (xs.length - c + 1) =
          D' ++ [(kx, vx)] := by
        rw [List.drop_append_eq_append_drop, hdropxs]
        have h0 : xs.length - c + 1 - xs.length = 0 := by omega
        rw [h0, List.drop_zero]
      have hkeys2 : ((xs ++ [(kx, vx)]).map Prod.fst).drop
          (xs.length - c + 1) = D'.map Prod.fst ++ [kx] := by
        rw [List.map_append, List.drop_append_eq_append_drop, hdropk]
        have h0 : xs.length - c + 1 - (xs.map Prod.fst).length = 0 := by
          rw [List.length_map]
          omega
        rw [h0, List.drop_zero]
        rfl
      rw [hlen2, hstore2, hkeys2]


/-- Lookup succeeds exactly on the map keys. -/
theorem mapLookup_isSome_iff {β : Type} {m : List (String × β)} {k : String} :
    (mapLookup m k).isSome = true ↔ k ∈ m.map Prod.fst := by
  induction m with
  | nil => simp [mapLookup]
  | cons e t ih =>
    simp only [mapLookup, List.map_cons, List.mem_cons]
    by_cases he : e.1 = k
    · simp [he]
    · rw [if_neg he, ih]
      constructor
      · exact Or.inr
      · rintro (h | h)
        · exact absurd h.symm he
        · exact h

/-- The keys of a map after erasure. -/
theorem mem_map_mapErase {β : Type} {m : List (String × β)} {k a : String} :
    a ∈ (mapErase m k).map Prod.fst ↔ a ∈ m.map Prod.fst ∧ a ≠ k := by
  unfold mapErase
  constructor
  · intro h
    obtain ⟨e, he, hea⟩ := List.mem_map.mp h
    obtain ⟨hem, hek⟩ := List.mem_filter.mp he
    simp only [decide_eq_true_eq] at hek
    exact ⟨List.mem_map.mpr ⟨e, hem, hea⟩, hea ▸ hek⟩
  · rintro ⟨hmem, hne⟩
    obtain ⟨e, he, hea⟩ := List.mem_map.mp hmem
    refine List.mem_map.mpr ⟨e, List.mem_filter.mpr ⟨he, ?_⟩, hea⟩
    simp only [decide_eq_true_eq]
    rw [hea]
    exact hne

/-- The keys of a map after insertion. -/
theorem mem_map_mapInsert {β : Type} {m : List (String × β)} {k a : String}
    {v : β} :
    a ∈ (mapInsert m k v).map Prod.fst ↔
      (a ∈ m.map Prod.fst ∧ a ≠ k) ∨ a = k := by
  unfold mapInsert
  rw [List.map_append, List.mem_append]
  constructor
  · rintro (h | h)
    · exact Or.inl (mem_map_mapErase.mp h)
    · right
      simpa using h
  · rintro (⟨hm, hne⟩ | rfl)
    · exact Or.inl (mem_map_mapErase.mpr ⟨hm, hne⟩)
    · right
      simp

/-- Two duplicate-free lists of keys with the same members have the same
length. -/
theorem length_eq_of_mem_iff {l₁ l₂ : List String} (h1 : l₁.Nodup)
    (h2 : l₂.Nodup) (h : ∀ a, a ∈ l₁ ↔ a ∈ l₂) : l₁.length = l₂.length := by
  rw [← List.toFinset_card_of_nodup h1, ← List.toFinset_card_of_nodup h2]
  congr 1
  ext a
  simp [h a]

/-- Inserting preserves duplicate-freedom of the map keys. -/
theorem nodup_map_mapInsert {β : Type} {m : List (String × β)} {k : String}
    {v : β} (h : (m.map Prod.fst).Nodup) :
    ((mapInsert m k v).map Prod.fst).Nodup := by
  unfold mapInsert
  rw [List.map_append]
  refine List.nodup_append.mpr ⟨?_, by simp, ?_⟩
  · exact ((List.filter_sublist m).map Prod.fst).nodup h
  · intro a ha hb
    simp only [List.map_cons, List.map_nil, List.mem_singleton] at hb
    subst hb
    exact (mem_map_mapErase.mp ha).2 rfl

/-- The eviction loop preserves the FIFO-map correspondence and both
duplicate-freedom properties, and bounds the surviving FIFO by the
capacity. -/
theorem evict404_inv {cap : Nat} :
    ∀ (keys : List String) (m : List (String × CachedResponse)),
      keys.Nodup → (∀ a, a ∈ keys ↔ a ∈ m.map Prod.fst) →
      (m.map Prod.fst).Nodup →
      (evict404 cap keys m).1.Nodup ∧
      (∀ a, a ∈ (evict404 cap keys m).1 ↔
          a ∈ (evict404 cap keys m).2.map Prod.fst) ∧
      ((evict404 cap keys m).2.map Prod.fst).Nodup ∧
      (evict404 cap keys m).1.length ≤ cap := by
  intro keys
  induction keys with
  | nil =>
    intro m h1 h2 h3
    exact ⟨List.nodup_nil, h2, h3, by simp [evict404]⟩
  | cons k rest ih =>
    intro m h1 h2 h3
    rw [show evict404 cap (k :: rest) m =
        if (k :: rest).length > cap then evict404 cap rest (mapErase m k)
        else (k :: rest, m) from rfl]
    by_cases hlen : (k :: rest).length > cap
    · rw [if_pos hlen]
      have hknr : k ∉ rest := (List.nodup_cons.mp h1).1
      refine ih (mapErase m k) (List.nodup_cons.mp h1).2 ?_ ?_
      · intro a
        rw [mem_map_mapErase]
        constructor
        · intro ha
          refine ⟨(h2 a).mp (List.mem_cons_of_mem k ha), ?_⟩
          intro hak
          exact hknr (hak ▸ ha)
        · rintro ⟨hm, hne⟩
          rcases List.mem_cons.mp ((h2 a).mpr hm) with hak | ha
          · exact absurd hak hne
          · exact ha
      · unfold mapErase
        exact ((List.filter_sublist m).map Prod.fst).nodup h3
    · rw [if_neg hlen]
      exact ⟨h1, h2, h3, Nat.le_of_not_lt hlen⟩

/-- The `set_404` operation preserves the store invariant. -/
theorem CacheInv_set_404 (st : CacheStore) (k : String) (v : CachedResponse)
    (h : CacheInv st) : CacheInv (st.set_404 k v) := by
  obtain ⟨h1, h2, h3, h4⟩ := h
  by_cases hcap : st.cache_404_capacity = 0
  · unfold CacheStore.set_404
    rw [if_pos hcap]
    exact ⟨h1, h2, h3, h4⟩
  · have hres : st.set_404 k v =
        { st with
          store404 := (evict404 st.cache_404_capacity
            ((if (mapLookup st.store404 k).isSome then st.keys404.erase k
              else st.keys404) ++ [k]) (mapInsert st.store404 k v)).2,
          keys404 := (evict404 st.cache_404_capacity
            ((if (mapLookup st.store404 k).isSome then st.keys404.erase k
              else st.keys404) ++ [k]) (mapInsert st.store404 k v)).1 } := by
      unfold CacheStore.set_404
      rw [if_neg hcap]
    rw [hres]
    have hF : (if (mapLookup st.store404 k).isSome then st.keys404.erase k
        else st.keys404).Nodup ∧
        ∀ a, a ∈ (if (mapLookup st.store404 k).isSome then
            st.keys404.erase k else st.keys404) ↔
          (a ∈ st.keys404 ∧ a ≠ k) := by
      by_cases hmem : (mapLookup st.store404 k).isSome = true
      · rw [if_pos hmem]
        refine ⟨h1.erase k, fun a => ?_⟩
        rw [h1.mem_erase_iff]
        tauto
      · rw [if_neg hmem]
        have hknot : k ∉ st.keys404 := by
          intro hm
          apply hmem
          rw [mapLookup_isSome_iff]
          exact (h2 k).mp hm
        refine ⟨h1, fun a => ?_⟩
        constructor
        · intro ha
          exact ⟨ha, fun he => hknot (he ▸ ha)⟩
        · exact And.left
    have hk1nd : ((if (mapLookup st.store404 k).isSome then
        st.keys404.erase k else st.keys404) ++ [k]).Nodup := by
      refine List.nodup_append.mpr ⟨hF.1, by simp, ?_⟩
      intro a ha hb
      simp only [List.mem_singleton] at hb
      subst hb
      exact ((hF.2 a).mp ha).2 rfl
    have hk1corr : ∀ a, a ∈ (if (mapLookup st.store404 k).isSome then
        st.keys404.erase k else st.keys404) ++ [k] ↔
        a ∈ (mapInsert st.store404 k v).map Prod.fst := by
      intro a
      rw [List.mem_append, mem_map_mapInsert]
      simp only [List.mem_singleton]
      constructor
      · rintro (ha | rfl)
        · exact Or.inl ⟨(h2 a).mp ((hF.2 a).mp ha).1, ((hF.2 a).mp ha).2⟩
        · exact Or.inr rfl
      · rintro (⟨hm, hne⟩ | rfl)
        · exact Or.inl ((hF.2 a).mpr ⟨(h2 a).mpr hm, hne⟩)
        · exact Or.inr rfl
    obtain ⟨e1, e2, e3, e4⟩ :=
      @evict404_inv st.cache_404_capacity _ _ hk1nd hk1corr
        (nodup_map_mapInsert h3)
    refine ⟨e1, e2, e3, ?_⟩
    have hle : ((evict404 st.cache_404_capacity
        ((if (mapLookup st.store404 k).isSome then st.keys404.erase k
          else st.keys404) ++ [k]) (mapInsert st.store404 k v)).2.map
            Prod.fst).length =
        (evict404 st.cache_404_capacity
          ((if (mapLookup st.store404 k).isSome then st.keys404.erase k
            else st.keys404) ++ [k]) (mapInsert st.store404 k v)).1.length :=
      (length_eq_of_mem_iff e1 e3 e2).symm
    rw [List.length_map] at hle
    calc _ = _ := hle
      _ ≤ st.cache_404_capacity := e4

end Cache

/-- claim C6: for every capacity `c ≥ 1`, after `set_404` is issued over
a list of pairwise-distinct keys on an initially empty store,
`size_404 = min n c` and the negative map retains exactly the last
`min (n, c)` inserted entries, the FIFO their keys (the oldest entries
are evicted first); and when the capacity is 0, `set_404` is a no-op. -/
theorem claim_C6 :
    (∀ (c : Nat) (items : List (String × Cache.CachedResponse)),
        1 ≤ c → (items.map Prod.fst).Nodup →
        (Cache.insertAll (Cache.CacheStore.new c) items).size_404 =
            min items.length c ∧
        (Cache.insertAll (Cache.CacheStore.new c) items).store404 =
            items.drop (items.length - c) ∧
        (Cache.insertAll (Cache.CacheStore.new c) items).keys404 =
            (items.map Prod.fst).drop (items.length - c)) ∧
    (∀ (st : Cache.CacheStore) (k : String) (v : Cache.CachedResponse),
        st.cache_404_capacity = 0 → st.set_404 k v = st) := by
  constructor
  · intro c items hc hnd
    rw [Cache.insertAll_spec hc items hnd]
    refine ⟨?_, rfl, rfl⟩
    simp only [Cache.CacheStore.size_404, List.length_drop]
    omega
  · intro st k v h
    unfold Cache.CacheStore.set_404
    rw [if_pos h]

/-- Witness for claim_C6: capacity 2, three distinct keys — the size is
min 3 2 and the first key was evicted; and a capacity-0 store ignores
`set_404`. -/
theorem claim_C6_witness :
    ((Cache.insertAll (Cache.CacheStore.new 2)
        [("GET:/n1", ⟨[1], [], 404⟩), ("GET:/n2", ⟨[2], [], 404⟩),
          ("GET:/n3", ⟨[3], [], 404⟩)]).size_404 = min 3 2 ∧
      (Cache.insertAll (Cache.CacheStore.new 2)
        [("GET:/n1", ⟨[1], [], 404⟩), ("GET:/n2", ⟨[2], [], 404⟩),
          ("GET:/n3", ⟨[3], [], 404⟩)]).store404 =
        [("GET:/n2", ⟨[2], [], 404⟩), ("GET:/n3", ⟨[3], [], 404⟩)]) ∧
    (⟨[], [], [], 0⟩ : Cache.CacheStore).set_404 "k" ⟨[], [], 404⟩ =
      (⟨[], [], [], 0⟩ : Cache.CacheStore) := by
  refine ⟨⟨?_, ?_⟩, ?_⟩
  · exact (claim_C6.1 2
      [("GET:/n1", ⟨[1], [], 404⟩), ("GET:/n2", ⟨[2], [], 404⟩),
        ("GET:/n3", ⟨[3], [], 404⟩)] (by omega) (by decide)).1
  · exact (claim_C6.1 2
      [("GET:/n1", ⟨[1], [], 404⟩), ("GET:/n2", ⟨[2], [], 404⟩),
        ("GET:/n3", ⟨[3], [], 404⟩)] (by omega) (by decide)).2.1
  · exact claim_C6.2 (⟨[], [], [], 0⟩ : Cache.CacheStore) "k" ⟨[], [], 404⟩
      rfl

/-- claim C7: each mutating store operation preserves the invariant: the
FIFO of negative keys is duplicate-free and carries exactly the key set
of the negative map, the negative map (an association list standing for
a `HashMap`, hence with duplicate-free keys) holds at most
`cache_404_capacity` entries.  The readers `get`, `get_404`, `size` and
`size_404` return values without producing a store, so they preserve
every state property by construction. -/
theorem claim_C7 (st : Cache.CacheStore) (k : String)
    (v : Cache.CachedResponse) (p : String) (h : Cache.CacheInv st) :
    Cache.CacheInv (st.set k v) ∧ Cache.CacheInv (st.set_404 k v) ∧
      Cache.CacheInv st.clear ∧ Cache.CacheInv (st.clear_by_pattern p) := by
  obtain ⟨h1, h2, h3, h4⟩ := h
  refine ⟨?_, Cache.CacheInv_set_404 st k v ⟨h1, h2, h3, h4⟩, ?_, ?_⟩
  · simp only [Cache.CacheInv, Cache.CacheStore.set]
    exact ⟨h1, h2, h3, h4⟩
  · simp only [Cache.CacheInv, Cache.CacheStore.clear]
    exact ⟨List.nodup_nil, by simp, List.nodup_nil, by simp⟩
  · simp only [Cache.CacheInv, Cache.CacheStore.clear_by_pattern]
    refine ⟨h1.filter _, ?_, ?_, ?_⟩
    · intro a
      constructor
      · intro ha
        obtain ⟨ha1, ha2⟩ := List.mem_filter.mp ha
        have ha2' : (! Cache.matches_pattern a.data p.data) = true := ha2
        obtain ⟨e, he, hea⟩ := List.mem_map.mp ((h2 a).mp ha1)
        refine List.mem_map.mpr ⟨e, List.mem_filter.mpr ⟨he, ?_⟩, hea⟩
        show (! Cache.matches_pattern e.1.data p.data) = true
        rw [hea]
        exact ha2'
      · intro ha
        obtain ⟨e, he, hea⟩ := List.mem_map.mp ha
        obtain ⟨he1, he2⟩ := List.mem_filter.mp he
        have he2' : (! Cache.matches_pattern e.1.data p.data) = true := he2
        refine List.mem_filter.mpr
          ⟨(h2 a).mpr (List.mem_map.mpr ⟨e, he1, hea⟩), ?_⟩
        show (! Cache.matches_pattern a.data p.data) = true
        rw [← hea]
        exact he2'
    · exact ((List.filter_sublist _).map Prod.fst).nodup h3
    · exact le_trans (List.length_filter_le _ _) h4

/-- Witness for claim_C7 at a concrete store satisfying the invariant. -/
theorem claim_C7_witness :
    Cache.CacheInv ((⟨[], [("GET:/x", ⟨[1], [], 404⟩)], ["GET:/x"], 2⟩ :
        Cache.CacheStore).set_404 "GET:/y" ⟨[2], [], 404⟩) :=
  (claim_C7
      (⟨[], [("GET:/x", ⟨[1], [], 404⟩)], ["GET:/x"], 2⟩ : Cache.CacheStore)
      "GET:/y" ⟨[2], [], 404⟩ "GET:/*"
      ⟨by decide, by intro a; simp, by decide, by decide⟩).2.1

end PhantomFrame
